import Mathlib

/-!
# svn-visualizer: verification of the aggregation and merge engine

Shallow embedding of the TypeScript sources of `doberkofler/svn-visualizer`:

* `src/aggregator.ts` — fixed-range aggregation (`aggregateCommits`,
  `getIsoWeek`, `formatDay`, `formatWeek`, `formatMonth`);
* the dashboard aggregator (rolling 30-day / 12-month windows, user totals,
  weekday and hour distributions);
* the gather command (`executeGather`): merge/dedup of commit lists, date-span
  recomputation, incremental fetch-window planning;
* the serializer (`SerializedDataSchema`, `deserializeData`).

Modelling conventions:

* JavaScript `Date` values are integers: milliseconds since the local epoch
  `1970-01-01T00:00:00`.  The code interprets every timestamp in local time
  consistently; the model fixes the local timezone to a zero offset with no
  DST, so `setHours(0,0,0,0)` is flooring to a multiple of `86400000`.
  All divisions use `Int` division `/` (`Int.ediv`) and `%` (`Int.emod`), which for the positive divisors
  appearing here agree with mathematical floor division and JavaScript's
  calendar arithmetic.
* JavaScript `Map` is an insertion-ordered key-value store; it is modelled by
  an association list without duplicate keys: `set` overwrites in place when
  the key is present and appends otherwise, `get` finds the unique entry.
* `Math.min(...[])` and `Math.max(...[])` return `±Infinity`, and
  `new Date(±Infinity)` is an *Invalid Date*; an invalid date is modelled as
  `none : Option Int`.
-/

/-- Milliseconds per calendar day. -/
def msPerDay : Int := 86400000

/-- Civil (proleptic Gregorian) date from a day count with day 0 =
1970-01-01, Howard Hinnant's `civil_from_days` algorithm.  Returns
`(year, month 1..12, day 1..31)`.  This is the calendar JavaScript's local
`getFullYear`/`getMonth`/`getDate` expose (with a zero-offset timezone). -/
def civilFromDays (z0 : Int) : Int × Int × Int :=
  let z := z0 + 719468
  let era := z / 146097
  let doe := z - era * 146097
  let yoe := (doe - doe / 1460 + doe / 36524 - doe / 146096) / 365
  let y := yoe + era * 400
  let doy := doe - (365 * yoe + yoe / 4 - yoe / 100)
  let mp := (5 * doy + 2) / 153
  let d := doy - (153 * mp + 2) / 5 + 1
  let m := mp + (if mp < 10 then 3 else -9)
  (y + (if m ≤ 2 then 1 else 0), m, d)

/-- Day count (day 0 = 1970-01-01) of a civil date, Hinnant's
`days_from_civil`; the inverse of `civilFromDays`. -/
def daysFromCivil (y m d : Int) : Int :=
  let y := y - (if m ≤ 2 then 1 else 0)
  let era := y / 400
  let yoe := y - era * 400
  let mp := if 2 < m then m - 3 else m + 9
  let doy := (153 * mp + 2) / 5 + d - 1
  let doe := yoe * 365 + yoe / 4 - yoe / 100 + doy
  era * 146097 + doe - 719468

/-- Calendar day index of a timestamp: `setHours(0,0,0,0)` on a local `Date`
lands on `dayIndex t * msPerDay`. -/
def dayIndex (t : Int) : Int := t / msPerDay

/-- JavaScript `getDay()` of the calendar day `d`: 0 = Sunday … 6 = Saturday.
Day 0 (1970-01-01) was a Thursday. -/
def dayOfWeek (d : Int) : Int := (d + 4) % 7

/-- `String(n).padStart(2, '0')`. -/
def pad2 (n : Int) : String :=
  if 0 ≤ n ∧ n < 10 then "0" ++ toString n else toString n

/-- `formatDay` of `src/aggregator.ts` restricted to a calendar day index:
`YYYY-MM-DD` from `getFullYear`/`getMonth`/`getDate`. -/
def formatDayIdx (d : Int) : String :=
  let c := civilFromDays d
  s!"{c.1}-{pad2 c.2.1}-{pad2 c.2.2}"

/-- `formatDay(date)` of `src/aggregator.ts`: the civil components of a
timestamp are those of its calendar day. -/
def formatDay (t : Int) : String := formatDayIdx (dayIndex t)

/-- `formatMonth` restricted to a calendar day index: `YYYY-MM`. -/
def formatMonthIdx (d : Int) : String :=
  let c := civilFromDays d
  s!"{c.1}-{pad2 c.2.1}"

/-- `formatMonth(date)` of `src/aggregator.ts`. -/
def formatMonth (t : Int) : String := formatMonthIdx (dayIndex t)

/-- `getIsoWeek` of `src/aggregator.ts` restricted to a calendar day index.
`d.setHours(0,0,0,0)` has already happened (we start from a day index);
`d.setDate(d.getDate() + 4 - (d.getDay() || 7))` shifts to the Thursday of
the ISO week; the week number is
`Math.ceil(((d - yearStart) / 86400000 + 1) / 7)` against local Jan 1 of the
shifted year. -/
def getIsoWeekIdx (d0 : Int) : Int × Int :=
  let dow := dayOfWeek d0
  let d := d0 + 4 - (if dow = 0 then 7 else dow)
  let y := (civilFromDays d).1
  let yearStart := daysFromCivil y 1 1
  (y, (d - yearStart + 1 + 6) / 7)

/-- `getIsoWeek(date)` of `src/aggregator.ts`: the initial
`setHours(0,0,0,0)` reduces the timestamp to its calendar day. -/
def getIsoWeek (t : Int) : Int × Int := getIsoWeekIdx (dayIndex t)

/-- `formatWeek` restricted to a calendar day index: `YYYY-Wxx`. -/
def formatWeekIdx (d : Int) : String :=
  let w := getIsoWeekIdx d
  s!"{w.1}-W{pad2 w.2}"

/-- `formatWeek(date)` of `src/aggregator.ts`. -/
def formatWeek (t : Int) : String := formatWeekIdx (dayIndex t)

/-- `getWeekdayName` of the dashboard aggregator: index into
`['Sunday', …, 'Saturday']` by `getDay()`, the day-of-week of the
timestamp's calendar day. -/
def getWeekdayName (t : Int) : String :=
  (["Sunday", "Monday", "Tuesday", "Wednesday", "Thursday", "Friday",
    "Saturday"].getD (dayOfWeek (dayIndex t)).toNat "Unknown")

/-! ## JavaScript `Map` as an association list -/

/-- `Map.set`: overwrite in place when the key is present (JavaScript keeps
the original insertion position), append otherwise. -/
def mapSet {κ ν : Type} [DecidableEq κ] :
    List (κ × ν) → κ → ν → List (κ × ν)
  | [], k, v => [(k, v)]
  | (k', v') :: rest, k, v =>
      if k' = k then (k', v) :: rest else (k', v') :: mapSet rest k v

/-- `Map.get`: the value at the first entry with the given key. -/
def mapGet {κ ν : Type} [DecidableEq κ] : List (κ × ν) → κ → Option ν
  | [], _ => none
  | (k', v') :: rest, k => if k' = k then some v' else mapGet rest k

/-- The key list of a map (insertion order). -/
def mapKeys {κ ν : Type} (m : List (κ × ν)) : List κ := m.map Prod.fst

/-- The `m.set(k, (m.get(k) ?? 0) + 1)` counting idiom. -/
def bump {κ : Type} [DecidableEq κ] (m : List (κ × Nat)) (k : κ) :
    List (κ × Nat) :=
  mapSet m k ((mapGet m k).getD 0 + 1)

/-! ## Commit records -/

/-- A commit record (`CommitSchema` of `src/parser.ts`); `date` is
milliseconds since the local epoch. -/
structure Commit where
  revision : Int
  author : String
  date : Int
  message : String
deriving Repr, DecidableEq

/-! ## Fixed-range aggregation (`src/aggregator.ts`) -/

/-- The calendar days `ds, ds+1, …, de` (empty when `de < ds`): the day
indices visited by the seeding loop
`while (current <= normalizedEnd) { …; current.setDate(current.getDate()+1) }`,
which starts at the normalized midnight of `ds` and runs while
`(ds + k) * msPerDay ≤ de * msPerDay + 86399999`, i.e. while `ds + k ≤ de`. -/
def daysInRange (ds de : Int) : List Int :=
  (List.range (de + 1 - ds).toNat).map (fun (i : Nat) => ds + (i : Int))

/-- Result of `aggregateCommits` in `src/aggregator.ts`. -/
structure AggregatedData where
  daily : List (String × Nat)
  weekly : List (String × Nat)
  monthly : List (String × Nat)
  userDaily : List (String × List (String × Nat))
  userWeekly : List (String × List (String × Nat))
  userMonthly : List (String × List (String × Nat))
  dateRange : Int × Int
deriving Repr, DecidableEq

/-- One iteration of the seeding loop of `aggregateCommits`: seed the day,
week and month label of calendar day `d` with 0. -/
def seedStep (m : List (String × Nat) × List (String × Nat) × List (String × Nat))
    (d : Int) :
    List (String × Nat) × List (String × Nat) × List (String × Nat) :=
  (mapSet m.1 (formatDayIdx d) 0,
   mapSet m.2.1 (formatWeekIdx d) 0,
   mapSet m.2.2 (formatMonthIdx d) 0)

/-- The per-author update of `aggregateCommits`:
`if (!userMap.has(author)) userMap.set(author, new Map()); inner.set(k, (inner.get(k) ?? 0)+1)`.
Reading the inner map with `new Map()` as the default and writing it back
with `mapSet` reproduces both branches. -/
def bumpUser (m : List (String × List (String × Nat))) (a k : String) :
    List (String × List (String × Nat)) :=
  mapSet m a (bump ((mapGet m a).getD []) k)

/-- One iteration of the commit loop of `aggregateCommits`: bump the three
overall maps and the three per-author maps at the commit's labels. -/
def commitStep (acc : AggregatedData) (c : Commit) : AggregatedData :=
  { acc with
    daily := bump acc.daily (formatDay c.date),
    weekly := bump acc.weekly (formatWeek c.date),
    monthly := bump acc.monthly (formatMonth c.date),
    userDaily := bumpUser acc.userDaily c.author (formatDay c.date),
    userWeekly := bumpUser acc.userWeekly c.author (formatWeek c.date),
    userMonthly := bumpUser acc.userMonthly c.author (formatMonth c.date) }

/-- `aggregateCommits` of `src/aggregator.ts`: normalize the range
(start floored to local midnight, end raised to local 23:59:59.999), seed
every day/week/month label of the range with 0, filter the commits to the
normalized range, then count each filtered commit into the overall and
per-author maps. -/
def aggregateCommits (commits : List Commit) (startDate endDate : Int) :
    AggregatedData :=
  let normStart := dayIndex startDate * msPerDay
  let normEnd := dayIndex endDate * msPerDay + 86399999
  let seeded := (daysInRange (dayIndex startDate) (dayIndex endDate)).foldl
    seedStep ([], [], [])
  let filteredCommits :=
    commits.filter (fun c => normStart ≤ c.date ∧ c.date ≤ normEnd)
  let init : AggregatedData :=
    { daily := seeded.1, weekly := seeded.2.1, monthly := seeded.2.2,
      userDaily := [], userWeekly := [], userMonthly := [],
      dateRange := (normStart, normEnd) }
  filteredCommits.foldl commitStep init

/-! ## Dashboard aggregation (rolling windows) -/

/-- Local hour of a timestamp (`getHours()`). -/
def hourOfDay (t : Int) : Int := (t % msPerDay) / 3600000

/-- JavaScript `MakeDay`: the day count of year `y`, 0-based month `m0`
(any integer: out-of-range months carry into the year) and day-of-month
`dom` (out-of-range days carry into adjacent months).  `setMonth` and
`setDate` both reduce to this. -/
def makeDay (y m0 dom : Int) : Int :=
  let mi := y * 12 + m0
  daysFromCivil (mi / 12) (mi % 12 + 1) 1 + (dom - 1)

/-- `setDate(1)` on a calendar day: the first day of its civil month. -/
def setDateTo1 (d : Int) : Int :=
  let c := civilFromDays d
  daysFromCivil c.1 c.2.1 1

/-- Result of the dashboard `aggregateCommits`. -/
structure DashboardData where
  last30Days : List (String × Nat)
  last12Months : List (String × Nat)
  userTotals : List (String × Nat)
  byWeekday : List (String × Nat)
  byHour : List (Int × Nat)
  dateRange : Int × Int
deriving Repr, DecidableEq

namespace Dashboard

/-- The dashboard `aggregateCommits`.  The source reads the wall clock with
`new Date()` twice (for the 30-day and the 12-month anchor) within one call;
the model passes the invocation instant `now` explicitly, as one value.
* `thirtyDaysAgo`: `setDate(getDate() - 30)` then `setHours(0,0,0,0)` is
  midnight of calendar day `dayIndex now - 30`; the 30 seeded buckets are the
  days `thirtyDaysAgo + i`, `i = 0 … 29`; a filtered commit is counted when
  `commit.date >= thirtyDaysAgo` (the commit's own day label is bumped, even
  when it was never seeded).
* `twelveMonthsAgo`: `setMonth(getMonth() - 12)` then `setDate(1)` then
  `setHours(0,0,0,0)`; the 12 seeded buckets step `setMonth(getMonth() + i)`
  from it; a filtered commit is counted when `commit.date >= twelveMonthsAgo`.
* `userTotals`, `byWeekday` (seeded Monday-first), `byHour` (seeded 0…23). -/
def aggregateCommits (commits : List Commit) (startDate endDate now : Int) :
    DashboardData :=
  let normStart := dayIndex startDate * msPerDay
  let normEnd := dayIndex endDate * msPerDay + 86399999
  let filteredCommits :=
    commits.filter (fun c => normStart ≤ c.date ∧ c.date ≤ normEnd)
  let thirtyDaysAgoDay := dayIndex now - 30
  let thirtyDaysAgo := thirtyDaysAgoDay * msPerDay
  let last30Seed := (List.range 30).foldl
    (fun m (i : Nat) => mapSet m (formatDayIdx (thirtyDaysAgoDay + (i : Int))) 0) []
  let last30Days := filteredCommits.foldl
    (fun m c => if thirtyDaysAgo ≤ c.date then bump m (formatDay c.date) else m)
    last30Seed
  let nowCivil := civilFromDays (dayIndex now)
  let twelveMonthsAgoDay :=
    setDateTo1 (makeDay nowCivil.1 (nowCivil.2.1 - 1 - 12) nowCivil.2.2)
  let twelveMonthsAgo := twelveMonthsAgoDay * msPerDay
  let tmaCivil := civilFromDays twelveMonthsAgoDay
  let last12Seed := (List.range 12).foldl
    (fun m (i : Nat) => mapSet m (formatMonthIdx (makeDay tmaCivil.1 (tmaCivil.2.1 - 1 + (i : Int)) 1)) 0) []
  let last12Months := filteredCommits.foldl
    (fun m c => if twelveMonthsAgo ≤ c.date then bump m (formatMonth c.date) else m)
    last12Seed
  let userTotals := filteredCommits.foldl (fun m c => bump m c.author) []
  let byWeekdaySeed : List (String × Nat) :=
    [("Monday", 0), ("Tuesday", 0), ("Wednesday", 0), ("Thursday", 0),
     ("Friday", 0), ("Saturday", 0), ("Sunday", 0)]
  let byWeekday := filteredCommits.foldl
    (fun m c => bump m (getWeekdayName c.date)) byWeekdaySeed
  let byHourSeed := (List.range 24).foldl
    (fun m i => mapSet m (Int.ofNat i) 0) ([] : List (Int × Nat))
  let byHour := filteredCommits.foldl
    (fun m c => bump m (hourOfDay c.date)) byHourSeed
  { last30Days := last30Days, last12Months := last12Months,
    userTotals := userTotals, byWeekday := byWeekday, byHour := byHour,
    dateRange := (normStart, normEnd) }

end Dashboard

/-! ## Merge / dedup, span recomputation, window planning (`executeGather`) -/

/-- The merge step of `executeGather`:
`existingRevisions = new Set(existing.map(c => c.revision))`;
`uniqueNewCommits = incoming.filter(c => !existingRevisions.has(c.revision))`;
result `[...existing, ...uniqueNewCommits]` with `uniqueNewCommits.length`
reported as the number of new commits. -/
def mergeCommits (existing incoming : List Commit) : List Commit × Nat :=
  let existingRevisions := existing.map (fun c => c.revision)
  let uniqueNewCommits :=
    incoming.filter (fun c => !(existingRevisions.contains c.revision))
  (existing ++ uniqueNewCommits, uniqueNewCommits.length)

/-- Date-span recomputation of `executeGather`:
`{start: new Date(Math.min(...dates)), end: new Date(Math.max(...dates))}`.
On an empty sequence `Math.min()` / `Math.max()` return `±Infinity` and
`new Date(±Infinity)` is an Invalid Date, modelled `none`; no exception is
thrown. -/
def recomputeSpan (commits : List Commit) : Option Int × Option Int :=
  match commits.map (fun c => c.date) with
  | [] => (none, none)
  | t :: ts => (some (ts.foldl min t), some (ts.foldl max t))

/-- Outcome of the incremental window planner. -/
inductive FetchPlan where
  /-- No data file exists: fetch with no date filter. -/
  | fetchAll
  /-- The candidate window is empty: skip the fetch entirely. -/
  | nothingToFetch
  /-- Fetch the window `[start, stop]`. -/
  | window (start stop : Int)
deriving Repr, DecidableEq

/-- The incremental window planning of `executeGather`: without a prior span
fetch everything; otherwise the candidate start is `priorSpan.end + 1000` ms
and the plan is "nothing to fetch" when `incrementalStart >= now`, else the
window `{start: incrementalStart, end: now}`. -/
def planWindow (priorSpan : Option (Int × Int)) (now : Int) : FetchPlan :=
  match priorSpan with
  | none => .fetchAll
  | some span =>
      let incrementalStart := span.2 + 1000
      if now ≤ incrementalStart then .nothingToFetch
      else .window incrementalStart now

/-! ## Serialization (`SerializedDataSchema`, `deserializeData`) -/

/-- JSON values.  The numbers that reach the schema here are the serialized
revision numbers, which are integers, so the numeric payload is `Int`. -/
inductive Json where
  | null
  | jbool (b : Bool)
  | num (n : Int)
  | str (s : String)
  | arr (xs : List Json)
  | obj (fields : List (String × Json))

/-- Property lookup on a parsed JSON object. -/
def jLookup (fields : List (String × Json)) (k : String) : Option Json :=
  (fields.find? (fun f => f.1 == k)).map (fun f => f.2)

/-- The element schema of `SerializedDataSchema.commits`:
`z.object({revision: z.number(), author: z.string(), date: z.string(),
message: z.string()})` — only primitive types, no positivity or date-format
validation. -/
structure SerializedCommit where
  revision : Int
  author : String
  date : String
  message : String
deriving Repr, DecidableEq

/-- Check one commit object against the element schema. -/
def parseSerializedCommit (j : Json) : Option SerializedCommit :=
  match j with
  | .obj fields =>
      match jLookup fields "revision", jLookup fields "author",
            jLookup fields "date", jLookup fields "message" with
      | some (.num r), some (.str a), some (.str d), some (.str m) =>
          some ⟨r, a, d, m⟩
      | _, _, _, _ => none
  | _ => none

/-- Check every element of the `commits` array against the element schema
(`z.array(...)`: the whole parse fails when any element fails). -/
def parseCommitList : List Json → Option (List SerializedCommit)
  | [] => some []
  | j :: rest =>
      match parseSerializedCommit j, parseCommitList rest with
      | some c, some cs => some (c :: cs)
      | _, _ => none

/-- `SerializedDataSchema.safeParse`: an object with a `commits` array of
commit objects and a `dateRange` object with string `start` / `end`. -/
def parseSerializedData (j : Json) :
    Option (List SerializedCommit × String × String) :=
  match j with
  | .obj fields =>
      match jLookup fields "commits", jLookup fields "dateRange" with
      | some (.arr cs), some (.obj dr) =>
          match parseCommitList cs,
                jLookup dr "start", jLookup dr "end" with
          | some commits, some (.str s), some (.str e) => some (commits, s, e)
          | _, _, _ => none
      | _, _ => none
  | _ => none

/-- A deserialized commit: `new Date(dateString)` never throws, an
unparseable string gives an Invalid Date (`none`). -/
structure DeserializedCommit where
  revision : Int
  author : String
  date : Option Int
  message : String
deriving Repr, DecidableEq

/-- `deserializeData`: parse with the schema (`none` models the thrown
`Invalid data file format` error), then convert each `date` string and the
range bounds with `new Date(...)`, passed in as `jsNewDate`. -/
def deserializeData (jsNewDate : String → Option Int) (j : Json) :
    Option (List DeserializedCommit × (Option Int × Option Int)) :=
  (parseSerializedData j).map (fun p =>
    (p.1.map (fun c => ⟨c.revision, c.author, jsNewDate c.date, c.message⟩),
     (jsNewDate p.2.1, jsNewDate p.2.2)))

/-- The JSON shape `serializeData` writes for one commit. -/
def encodeCommit (c : SerializedCommit) : Json :=
  .obj [("revision", .num c.revision), ("author", .str c.author),
        ("date", .str c.date), ("message", .str c.message)]

/-- The JSON shape `serializeData` writes for a whole data file. -/
def encodeData (rs : List SerializedCommit) (s e : String) : Json :=
  .obj [("commits", .arr (rs.map encodeCommit)),
        ("dateRange", .obj [("start", .str s), ("end", .str e)])]


/-! ## Map lemmas -/

section MapLemmas

variable {κ ν : Type} [DecidableEq κ]

theorem mapSet_nil (k : κ) (v : ν) : mapSet [] k v = [(k, v)] := rfl

theorem mapSet_cons (e : κ × ν) (rest : List (κ × ν)) (k : κ) (v : ν) :
    mapSet (e :: rest) k v =
      if e.1 = k then (e.1, v) :: rest else e :: mapSet rest k v := rfl

theorem mapGet_nil (k : κ) : mapGet ([] : List (κ × ν)) k = none := rfl

theorem mapGet_cons (e : κ × ν) (rest : List (κ × ν)) (k : κ) :
    mapGet (e :: rest) k = if e.1 = k then some e.2 else mapGet rest k := rfl

theorem mapGet_mapSet_self (m : List (κ × ν)) (k : κ) (v : ν) :
    mapGet (mapSet m k v) k = some v := by
  induction m with
  | nil => rw [mapSet_nil, mapGet_cons, if_pos rfl]
  | cons e rest ih =>
      rw [mapSet_cons]
      by_cases h : e.1 = k
      · rw [if_pos h, mapGet_cons, if_pos h]
      · rw [if_neg h, mapGet_cons, if_neg h, ih]

theorem mapGet_mapSet_ne (m : List (κ × ν)) (k0 k : κ) (v : ν) (h : k ≠ k0) :
    mapGet (mapSet m k0 v) k = mapGet m k := by
  have h' : ¬ k0 = k := fun hh => h hh.symm
  induction m with
  | nil => rw [mapSet_nil, mapGet_cons, mapGet_nil, if_neg h']
  | cons e rest ih =>
      rw [mapSet_cons]
      by_cases he : e.1 = k0
      · rw [if_pos he, mapGet_cons, mapGet_cons]
        rw [he]
        rw [if_neg h', if_neg h']
      · rw [if_neg he, mapGet_cons, mapGet_cons, ih]

theorem mem_mapKeys_mapSet (m : List (κ × ν)) (k0 k : κ) (v : ν) :
    k ∈ mapKeys (mapSet m k0 v) ↔ k = k0 ∨ k ∈ mapKeys m := by
  induction m with
  | nil => simp [mapSet_nil, mapKeys]
  | cons e rest ih =>
      rw [mapSet_cons]
      by_cases h : e.1 = k0
      · rw [if_pos h]
        simp only [mapKeys, List.map_cons, List.mem_cons] at ih ⊢
        rw [h]
        tauto
      · rw [if_neg h]
        simp only [mapKeys, List.map_cons, List.mem_cons] at ih ⊢
        rw [ih]
        tauto

theorem mem_mapKeys_bump (m : List (κ × Nat)) (k0 k : κ) :
    k ∈ mapKeys (bump m k0) ↔ k = k0 ∨ k ∈ mapKeys m :=
  mem_mapKeys_mapSet m k0 k _

theorem mapGet_bump_self (m : List (κ × Nat)) (k : κ) :
    mapGet (bump m k) k = some ((mapGet m k).getD 0 + 1) :=
  mapGet_mapSet_self m k _

theorem mapGet_bump_ne (m : List (κ × Nat)) (k0 k : κ) (h : k ≠ k0) :
    mapGet (bump m k0) k = mapGet m k :=
  mapGet_mapSet_ne m k0 k _ h

/-- Key membership after the seeding pattern
`for x in L: m.set(f x, 0)`. -/
theorem mem_mapKeys_foldl_set0 {α : Type} (f : α → κ) (L : List α)
    (m : List (κ × Nat)) (k : κ) :
    k ∈ mapKeys (L.foldl (fun m x => mapSet m (f x) 0) m) ↔
      k ∈ mapKeys m ∨ ∃ x ∈ L, f x = k := by
  induction L generalizing m with
  | nil => simp
  | cons a L ih =>
      rw [List.foldl_cons, ih, mem_mapKeys_mapSet]
      constructor
      · rintro ((rfl | h) | ⟨x, hx, rfl⟩)
        · exact Or.inr ⟨a, by simp⟩
        · exact Or.inl h
        · exact Or.inr ⟨x, by simp [hx]⟩
      · rintro (h | ⟨x, hx, rfl⟩)
        · exact Or.inl (Or.inr h)
        · rcases List.mem_cons.1 hx with rfl | hx
          · exact Or.inl (Or.inl rfl)
          · exact Or.inr ⟨x, hx, rfl⟩

/-- Value after the seeding pattern: a seeded key holds 0, everything else
is untouched. -/
theorem mapGet_foldl_set0 {α : Type} (f : α → κ) (L : List α)
    (m : List (κ × Nat)) (k : κ) :
    mapGet (L.foldl (fun m x => mapSet m (f x) 0) m) k =
      if k ∈ L.map f then some 0 else mapGet m k := by
  induction L generalizing m with
  | nil => simp
  | cons a L ih =>
      rw [List.foldl_cons, ih]
      by_cases hmem : k ∈ L.map f
      · simp [hmem]
      · by_cases hk : k = f a
        · subst hk
          simp [hmem, mapGet_mapSet_self]
        · simp [hmem, hk, mapGet_mapSet_ne _ _ _ _ hk]

/-- Key membership after the counting pattern
`for c in L: m.set(f c, (m.get(f c) ?? 0) + 1)`. -/
theorem mem_mapKeys_foldl_bump {α : Type} (f : α → κ) (L : List α)
    (m : List (κ × Nat)) (k : κ) :
    k ∈ mapKeys (L.foldl (fun m c => bump m (f c)) m) ↔
      k ∈ mapKeys m ∨ ∃ c ∈ L, f c = k := by
  induction L generalizing m with
  | nil => simp
  | cons a L ih =>
      rw [List.foldl_cons, ih, mem_mapKeys_bump]
      constructor
      · rintro ((rfl | h) | ⟨x, hx, rfl⟩)
        · exact Or.inr ⟨a, by simp⟩
        · exact Or.inl h
        · exact Or.inr ⟨x, by simp [hx]⟩
      · rintro (h | ⟨x, hx, rfl⟩)
        · exact Or.inl (Or.inr h)
        · rcases List.mem_cons.1 hx with rfl | hx
          · exact Or.inl (Or.inl rfl)
          · exact Or.inr ⟨x, hx, rfl⟩

/-- Key membership after the guarded counting pattern
`for c in L: if p c then m.set(f c, (m.get(f c) ?? 0) + 1)`. -/
theorem mem_mapKeys_foldl_condBump {α : Type} (p : α → Prop) [DecidablePred p]
    (f : α → κ) (L : List α) (m : List (κ × Nat)) (k : κ) :
    k ∈ mapKeys (L.foldl (fun m c => if p c then bump m (f c) else m) m) ↔
      k ∈ mapKeys m ∨ ∃ c ∈ L, p c ∧ f c = k := by
  induction L generalizing m with
  | nil => simp
  | cons a L ih =>
      rw [List.foldl_cons, ih]
      by_cases hp : p a
      · rw [if_pos hp, mem_mapKeys_bump]
        constructor
        · rintro ((rfl | h) | ⟨x, hx, hpx, rfl⟩)
          · exact Or.inr ⟨a, by simp, hp, rfl⟩
          · exact Or.inl h
          · exact Or.inr ⟨x, by simp [hx], hpx, rfl⟩
        · rintro (h | ⟨x, hx, hpx, rfl⟩)
          · exact Or.inl (Or.inr h)
          · rcases List.mem_cons.1 hx with rfl | hx
            · exact Or.inl (Or.inl rfl)
            · exact Or.inr ⟨x, hx, hpx, rfl⟩
      · rw [if_neg hp]
        constructor
        · rintro (h | ⟨x, hx, hpx, rfl⟩)
          · exact Or.inl h
          · exact Or.inr ⟨x, by simp [hx], hpx, rfl⟩
        · rintro (h | ⟨x, hx, hpx, rfl⟩)
          · exact Or.inl h
          · rcases List.mem_cons.1 hx with rfl | hx
            · exact absurd hpx hp
            · exact Or.inr ⟨x, hx, hpx, rfl⟩

/-- Value after the guarded counting pattern, at a key that is present:
the old value plus the number of counted elements with this label. -/
theorem mapGet_foldl_condBump {α : Type} (p : α → Prop) [DecidablePred p]
    (f : α → κ) (L : List α) (m : List (κ × Nat)) (k : κ) (v : Nat)
    (hv : mapGet m k = some v) :
    mapGet (L.foldl (fun m c => if p c then bump m (f c) else m) m) k =
      some (v + L.countP (fun c => decide (p c ∧ f c = k))) := by
  induction L generalizing m v with
  | nil => simpa using hv
  | cons a L ih =>
      rw [List.foldl_cons]
      by_cases hp : p a
      · rw [if_pos hp]
        by_cases hk : f a = k
        · subst hk
          have h1 : mapGet (bump m (f a)) (f a) = some (v + 1) := by
            rw [mapGet_bump_self, hv]
            rfl
          rw [ih _ _ h1, List.countP_cons_of_pos _ _ (by simp [hp])]
          congr 1
          omega
        · have h1 : mapGet (bump m (f a)) k = some v := by
            rw [mapGet_bump_ne _ _ _ (fun hh => hk hh.symm), hv]
          rw [ih _ _ h1, List.countP_cons_of_neg _ _ (by simp [hk])]
      · rw [if_neg hp, ih _ _ hv, List.countP_cons_of_neg _ _ (by simp [hp])]

end MapLemmas

/-! ## Per-author fold lemmas -/

section UserLemmas

variable {α : Type}

/-- Authors appearing after the per-author counting pattern: exactly the
initial authors plus the authors of the processed commits. -/
theorem mem_mapKeys_foldl_bumpUser (g f : α → String) (L : List α)
    (m : List (String × List (String × Nat))) (a : String) :
    a ∈ mapKeys (L.foldl (fun m c => bumpUser m (g c) (f c)) m) ↔
      a ∈ mapKeys m ∨ ∃ c ∈ L, g c = a := by
  induction L generalizing m with
  | nil => simp
  | cons x L ih =>
      rw [List.foldl_cons, ih, bumpUser, mem_mapKeys_mapSet]
      constructor
      · rintro ((rfl | h) | ⟨c, hc, rfl⟩)
        · exact Or.inr ⟨x, by simp⟩
        · exact Or.inl h
        · exact Or.inr ⟨c, by simp [hc]⟩
      · rintro (h | ⟨c, hc, rfl⟩)
        · exact Or.inl (Or.inr h)
        · rcases List.mem_cons.1 hc with rfl | hc
          · exact Or.inl (Or.inl rfl)
          · exact Or.inr ⟨c, hc, rfl⟩

/-- Inner keys of one author's map after the per-author counting pattern:
the author's initial labels plus the labels of that author's commits. -/
theorem mem_innerKeys_foldl_bumpUser (g f : α → String) (L : List α)
    (m : List (String × List (String × Nat))) (a k : String) :
    k ∈ mapKeys ((mapGet (L.foldl (fun m c => bumpUser m (g c) (f c)) m) a).getD []) ↔
      k ∈ mapKeys ((mapGet m a).getD []) ∨ ∃ c ∈ L, g c = a ∧ f c = k := by
  induction L generalizing m with
  | nil => simp
  | cons x L ih =>
      rw [List.foldl_cons, ih]
      by_cases hx : g x = a
      · subst hx
        rw [bumpUser, mapGet_mapSet_self]
        simp only [Option.getD_some]
        rw [mem_mapKeys_bump]
        constructor
        · rintro ((rfl | h) | ⟨c, hc, hgc, rfl⟩)
          · exact Or.inr ⟨x, by simp, rfl, rfl⟩
          · exact Or.inl h
          · exact Or.inr ⟨c, by simp [hc], hgc, rfl⟩
        · rintro (h | ⟨c, hc, hgc, rfl⟩)
          · exact Or.inl (Or.inr h)
          · rcases List.mem_cons.1 hc with rfl | hc
            · exact Or.inl (Or.inl rfl)
            · exact Or.inr ⟨c, hc, hgc, rfl⟩
      · rw [bumpUser, mapGet_mapSet_ne _ _ _ _ (fun hh => hx hh.symm)]
        constructor
        · rintro (h | ⟨c, hc, hgc, rfl⟩)
          · exact Or.inl h
          · exact Or.inr ⟨c, by simp [hc], hgc, rfl⟩
        · rintro (h | ⟨c, hc, hgc, rfl⟩)
          · exact Or.inl h
          · rcases List.mem_cons.1 hc with rfl | hc
            · exact absurd hgc hx
            · exact Or.inr ⟨c, hc, hgc, rfl⟩

end UserLemmas

/-! ## Unfolding the aggregation folds componentwise -/

theorem foldl_commitStep_daily (L : List Commit) (a : AggregatedData) :
    (L.foldl commitStep a).daily =
      L.foldl (fun m c => bump m (formatDay c.date)) a.daily := by
  induction L generalizing a with
  | nil => rfl
  | cons c L ih => rw [List.foldl_cons, List.foldl_cons, ih]; rfl

theorem foldl_commitStep_weekly (L : List Commit) (a : AggregatedData) :
    (L.foldl commitStep a).weekly =
      L.foldl (fun m c => bump m (formatWeek c.date)) a.weekly := by
  induction L generalizing a with
  | nil => rfl
  | cons c L ih => rw [List.foldl_cons, List.foldl_cons, ih]; rfl

theorem foldl_commitStep_monthly (L : List Commit) (a : AggregatedData) :
    (L.foldl commitStep a).monthly =
      L.foldl (fun m c => bump m (formatMonth c.date)) a.monthly := by
  induction L generalizing a with
  | nil => rfl
  | cons c L ih => rw [List.foldl_cons, List.foldl_cons, ih]; rfl

theorem foldl_commitStep_userDaily (L : List Commit) (a : AggregatedData) :
    (L.foldl commitStep a).userDaily =
      L.foldl (fun m c => bumpUser m c.author (formatDay c.date)) a.userDaily := by
  induction L generalizing a with
  | nil => rfl
  | cons c L ih => rw [List.foldl_cons, List.foldl_cons, ih]; rfl

theorem foldl_commitStep_userWeekly (L : List Commit) (a : AggregatedData) :
    (L.foldl commitStep a).userWeekly =
      L.foldl (fun m c => bumpUser m c.author (formatWeek c.date)) a.userWeekly := by
  induction L generalizing a with
  | nil => rfl
  | cons c L ih => rw [List.foldl_cons, List.foldl_cons, ih]; rfl

theorem foldl_commitStep_userMonthly (L : List Commit) (a : AggregatedData) :
    (L.foldl commitStep a).userMonthly =
      L.foldl (fun m c => bumpUser m c.author (formatMonth c.date)) a.userMonthly := by
  induction L generalizing a with
  | nil => rfl
  | cons c L ih => rw [List.foldl_cons, List.foldl_cons, ih]; rfl

theorem foldl_seedStep_daily (L : List Int)
    (a : List (String × Nat) × List (String × Nat) × List (String × Nat)) :
    (L.foldl seedStep a).1 =
      L.foldl (fun m d => mapSet m (formatDayIdx d) 0) a.1 := by
  induction L generalizing a with
  | nil => rfl
  | cons d L ih => rw [List.foldl_cons, List.foldl_cons, ih]; rfl

theorem foldl_seedStep_weekly (L : List Int)
    (a : List (String × Nat) × List (String × Nat) × List (String × Nat)) :
    (L.foldl seedStep a).2.1 =
      L.foldl (fun m d => mapSet m (formatWeekIdx d) 0) a.2.1 := by
  induction L generalizing a with
  | nil => rfl
  | cons d L ih => rw [List.foldl_cons, List.foldl_cons, ih]; rfl

theorem foldl_seedStep_monthly (L : List Int)
    (a : List (String × Nat) × List (String × Nat) × List (String × Nat)) :
    (L.foldl seedStep a).2.2 =
      L.foldl (fun m d => mapSet m (formatMonthIdx d) 0) a.2.2 := by
  induction L generalizing a with
  | nil => rfl
  | cons d L ih => rw [List.foldl_cons, List.foldl_cons, ih]; rfl

/-! ## Range and day-index lemmas -/

theorem mem_daysInRange (ds de d : Int) :
    d ∈ daysInRange ds de ↔ ds ≤ d ∧ d ≤ de := by
  constructor
  · intro h
    rw [daysInRange] at h
    rcases List.mem_map.1 h with ⟨i, hi, hd⟩
    rw [List.mem_range] at hi
    subst hd
    omega
  · intro h
    rw [daysInRange]
    refine List.mem_map.2 ⟨(d - ds).toNat, ?_, ?_⟩
    · rw [List.mem_range]
      omega
    · omega

/-- A timestamp inside the normalized range lies on a calendar day inside
the range's day span. -/
theorem dayIndex_mem_of_range (t ds de : Int)
    (h1 : ds * msPerDay ≤ t) (h2 : t ≤ de * msPerDay + 86399999) :
    ds ≤ dayIndex t ∧ dayIndex t ≤ de := by
  rw [dayIndex, msPerDay] at *
  omega

/-! ## Density of the fixed-range overall maps -/

/-- Shape of each overall dimension of `aggregateCommits`: seed the labels of
the day range with 0, then bump the label of each filtered commit.  The key
set ends up being exactly the label set of the day range, because every
filtered commit's timestamp lies on a day of the range. -/
theorem mem_keys_dim (fmt fmtIdx : Int → String)
    (hfmt : ∀ t, fmt t = fmtIdx (dayIndex t))
    (commits : List Commit) (ds de : Int) (k : String) :
    (k ∈ mapKeys ((commits.filter
        (fun c => ds * msPerDay ≤ c.date ∧ c.date ≤ de * msPerDay + 86399999)).foldl
        (fun m c => bump m (fmt c.date))
        ((daysInRange ds de).foldl (fun m d => mapSet m (fmtIdx d) 0) [])) ↔
      ∃ d ∈ daysInRange ds de, fmtIdx d = k) := by
  rw [mem_mapKeys_foldl_bump, mem_mapKeys_foldl_set0]
  constructor
  · rintro ((h | h) | ⟨c, hc, rfl⟩)
    · exact absurd h (List.not_mem_nil k)
    · exact h
    · obtain ⟨hmem, hp⟩ := List.mem_filter.1 hc
      obtain ⟨h1, h2⟩ := of_decide_eq_true hp
      refine ⟨dayIndex c.date, ?_, (hfmt c.date).symm⟩
      rw [mem_daysInRange]
      exact dayIndex_mem_of_range _ _ _ h1 h2
  · intro h
    exact Or.inl (Or.inr h)

theorem aggregateCommits_daily_eq (commits : List Commit) (s e : Int) :
    (aggregateCommits commits s e).daily =
      (commits.filter (fun c => dayIndex s * msPerDay ≤ c.date ∧
          c.date ≤ dayIndex e * msPerDay + 86399999)).foldl
        (fun m c => bump m (formatDay c.date))
        ((daysInRange (dayIndex s) (dayIndex e)).foldl
          (fun m d => mapSet m (formatDayIdx d) 0) []) := by
  simp only [aggregateCommits, foldl_commitStep_daily, foldl_seedStep_daily]

theorem aggregateCommits_weekly_eq (commits : List Commit) (s e : Int) :
    (aggregateCommits commits s e).weekly =
      (commits.filter (fun c => dayIndex s * msPerDay ≤ c.date ∧
          c.date ≤ dayIndex e * msPerDay + 86399999)).foldl
        (fun m c => bump m (formatWeek c.date))
        ((daysInRange (dayIndex s) (dayIndex e)).foldl
          (fun m d => mapSet m (formatWeekIdx d) 0) []) := by
  simp only [aggregateCommits, foldl_commitStep_weekly, foldl_seedStep_weekly]

theorem aggregateCommits_monthly_eq (commits : List Commit) (s e : Int) :
    (aggregateCommits commits s e).monthly =
      (commits.filter (fun c => dayIndex s * msPerDay ≤ c.date ∧
          c.date ≤ dayIndex e * msPerDay + 86399999)).foldl
        (fun m c => bump m (formatMonth c.date))
        ((daysInRange (dayIndex s) (dayIndex e)).foldl
          (fun m d => mapSet m (formatMonthIdx d) 0) []) := by
  simp only [aggregateCommits, foldl_commitStep_monthly, foldl_seedStep_monthly]

/-- C1: for every commit list and every range with `start ≤ end`, the overall
daily, weekly and monthly maps of the fixed-range aggregation have key sets
equal to exactly the day, ISO-week and month labels of the calendar days in
`[normalizedStart, normalizedEnd]` — every such label is a key (even with a
zero count) and no other key occurs. -/
theorem aggregateCommits_fixed_range_density (commits : List Commit)
    (s e : Int) (k : String) (h : s ≤ e) :
    (k ∈ mapKeys (aggregateCommits commits s e).daily ↔
        k ∈ (daysInRange (dayIndex s) (dayIndex e)).map formatDayIdx) ∧
    (k ∈ mapKeys (aggregateCommits commits s e).weekly ↔
        k ∈ (daysInRange (dayIndex s) (dayIndex e)).map formatWeekIdx) ∧
    (k ∈ mapKeys (aggregateCommits commits s e).monthly ↔
        k ∈ (daysInRange (dayIndex s) (dayIndex e)).map formatMonthIdx) := by
  refine ⟨?_, ?_, ?_⟩
  · rw [aggregateCommits_daily_eq,
      mem_keys_dim formatDay formatDayIdx (fun t => rfl) commits _ _ k,
      List.mem_map]
  · rw [aggregateCommits_weekly_eq,
      mem_keys_dim formatWeek formatWeekIdx (fun t => rfl) commits _ _ k,
      List.mem_map]
  · rw [aggregateCommits_monthly_eq,
      mem_keys_dim formatMonth formatMonthIdx (fun t => rfl) commits _ _ k,
      List.mem_map]

/-- Witness for C1 at a concrete input: a two-day range with one commit. -/
theorem aggregateCommits_fixed_range_density_witness :
    (0 : Int) ≤ 86400000 ∧
    (("1970-01-02" ∈ mapKeys
        (aggregateCommits [⟨1, "a", 3600000, ""⟩] 0 86400000).daily ↔
        "1970-01-02" ∈ (daysInRange (dayIndex 0) (dayIndex 86400000)).map formatDayIdx) ∧
     ("1970-01-02" ∈ mapKeys
        (aggregateCommits [⟨1, "a", 3600000, ""⟩] 0 86400000).weekly ↔
        "1970-01-02" ∈ (daysInRange (dayIndex 0) (dayIndex 86400000)).map formatWeekIdx) ∧
     ("1970-01-02" ∈ mapKeys
        (aggregateCommits [⟨1, "a", 3600000, ""⟩] 0 86400000).monthly ↔
        "1970-01-02" ∈ (daysInRange (dayIndex 0) (dayIndex 86400000)).map formatMonthIdx)) :=
  ⟨by decide,
   aggregateCommits_fixed_range_density [⟨1, "a", 3600000, ""⟩] 0 86400000
     "1970-01-02" (by decide)⟩

/-! ## Per-author maps are sparse -/

theorem aggregateCommits_userDaily_eq (commits : List Commit) (s e : Int) :
    (aggregateCommits commits s e).userDaily =
      (commits.filter (fun c => dayIndex s * msPerDay ≤ c.date ∧
          c.date ≤ dayIndex e * msPerDay + 86399999)).foldl
        (fun m c => bumpUser m c.author (formatDay c.date)) [] := by
  simp only [aggregateCommits, foldl_commitStep_userDaily]

theorem aggregateCommits_userWeekly_eq (commits : List Commit) (s e : Int) :
    (aggregateCommits commits s e).userWeekly =
      (commits.filter (fun c => dayIndex s * msPerDay ≤ c.date ∧
          c.date ≤ dayIndex e * msPerDay + 86399999)).foldl
        (fun m c => bumpUser m c.author (formatWeek c.date)) [] := by
  simp only [aggregateCommits, foldl_commitStep_userWeekly]

theorem aggregateCommits_userMonthly_eq (commits : List Commit) (s e : Int) :
    (aggregateCommits commits s e).userMonthly =
      (commits.filter (fun c => dayIndex s * msPerDay ≤ c.date ∧
          c.date ≤ dayIndex e * msPerDay + 86399999)).foldl
        (fun m c => bumpUser m c.author (formatMonth c.date)) [] := by
  simp only [aggregateCommits, foldl_commitStep_userMonthly]

/-- C6: per-author fixed-range maps are not zero-seeded over the full range:
an author appears iff it has a filtered commit, and an author's per-day,
per-week and per-month maps contain exactly the labels of the periods in
which that author has a filtered commit.  On the spec's three-commit example
(range 2024-03-01..2024-03-02) the day totals are
`{2024-03-01: 2, 2024-03-02: 1}`, author `a`'s per-day map is
`{2024-03-01: 1, 2024-03-02: 1}`, and author `b`'s per-day map is
`{2024-03-01: 1}` with no `2024-03-02` key. -/
theorem aggregateCommits_per_author_sparse (commits : List Commit)
    (s e : Int) (a k : String) :
    (a ∈ mapKeys (aggregateCommits commits s e).userDaily ↔
       ∃ c ∈ commits.filter (fun c => dayIndex s * msPerDay ≤ c.date ∧
          c.date ≤ dayIndex e * msPerDay + 86399999), c.author = a) ∧
    (k ∈ mapKeys ((mapGet (aggregateCommits commits s e).userDaily a).getD []) ↔
       ∃ c ∈ commits.filter (fun c => dayIndex s * msPerDay ≤ c.date ∧
          c.date ≤ dayIndex e * msPerDay + 86399999),
         c.author = a ∧ formatDay c.date = k) ∧
    (k ∈ mapKeys ((mapGet (aggregateCommits commits s e).userWeekly a).getD []) ↔
       ∃ c ∈ commits.filter (fun c => dayIndex s * msPerDay ≤ c.date ∧
          c.date ≤ dayIndex e * msPerDay + 86399999),
         c.author = a ∧ formatWeek c.date = k) ∧
    (k ∈ mapKeys ((mapGet (aggregateCommits commits s e).userMonthly a).getD []) ↔
       ∃ c ∈ commits.filter (fun c => dayIndex s * msPerDay ≤ c.date ∧
          c.date ≤ dayIndex e * msPerDay + 86399999),
         c.author = a ∧ formatMonth c.date = k) ∧
    ((aggregateCommits
        [⟨1, "a", 19783 * 86400000 + 36000000, ""⟩,
         ⟨2, "b", 19783 * 86400000 + 54000000, ""⟩,
         ⟨3, "a", 19784 * 86400000 + 32400000, ""⟩]
        (19783 * 86400000) (19784 * 86400000)).daily =
      [("2024-03-01", 2), ("2024-03-02", 1)] ∧
     mapGet (aggregateCommits
        [⟨1, "a", 19783 * 86400000 + 36000000, ""⟩,
         ⟨2, "b", 19783 * 86400000 + 54000000, ""⟩,
         ⟨3, "a", 19784 * 86400000 + 32400000, ""⟩]
        (19783 * 86400000) (19784 * 86400000)).userDaily "a" =
      some [("2024-03-01", 1), ("2024-03-02", 1)] ∧
     mapGet (aggregateCommits
        [⟨1, "a", 19783 * 86400000 + 36000000, ""⟩,
         ⟨2, "b", 19783 * 86400000 + 54000000, ""⟩,
         ⟨3, "a", 19784 * 86400000 + 32400000, ""⟩]
        (19783 * 86400000) (19784 * 86400000)).userDaily "b" =
      some [("2024-03-01", 1)] ∧
     mapGet ((mapGet (aggregateCommits
        [⟨1, "a", 19783 * 86400000 + 36000000, ""⟩,
         ⟨2, "b", 19783 * 86400000 + 54000000, ""⟩,
         ⟨3, "a", 19784 * 86400000 + 32400000, ""⟩]
        (19783 * 86400000) (19784 * 86400000)).userDaily "b").getD [])
        "2024-03-02" = none) := by
  refine ⟨?_, ?_, ?_, ?_, by decide, by decide, by decide, by decide⟩
  · rw [aggregateCommits_userDaily_eq,
      mem_mapKeys_foldl_bumpUser (fun (c : Commit) => c.author) (fun (c : Commit) => formatDay c.date)]
    simp [mapKeys]
  · rw [aggregateCommits_userDaily_eq,
      mem_innerKeys_foldl_bumpUser (fun (c : Commit) => c.author) (fun (c : Commit) => formatDay c.date)]
    simp [mapGet_nil, mapKeys]
  · rw [aggregateCommits_userWeekly_eq,
      mem_innerKeys_foldl_bumpUser (fun (c : Commit) => c.author) (fun (c : Commit) => formatWeek c.date)]
    simp [mapGet_nil, mapKeys]
  · rw [aggregateCommits_userMonthly_eq,
      mem_innerKeys_foldl_bumpUser (fun (c : Commit) => c.author) (fun (c : Commit) => formatMonth c.date)]
    simp [mapGet_nil, mapKeys]

/-! ## Merge / dedup properties -/

/-- In a list whose revisions are pairwise distinct, a revision that occurs
at all occurs in exactly one record. -/
theorem filter_revision_of_nodup (l : List Commit) (r : Int)
    (hnd : (l.map (fun c => c.revision)).Nodup)
    (hr : r ∈ l.map (fun c => c.revision)) :
    (l.filter (fun c => c.revision == r)).length = 1 := by
  induction l with
  | nil => simp at hr
  | cons c l ih =>
      rw [List.map_cons, List.nodup_cons] at hnd
      rw [List.map_cons, List.mem_cons] at hr
      by_cases hc : c.revision = r
      · have hempty : l.filter (fun c => c.revision == r) = [] := by
          rw [List.filter_eq_nil_iff]
          intro a ha
          simp only [beq_iff_eq]
          intro har
          exact hnd.1 (by rw [← hc] at har; rw [← har]; exact List.mem_map_of_mem _ ha)
        rw [List.filter_cons_of_pos (by simp [hc]), hempty]
        rfl
      · rcases hr with hr | hr
        · exact absurd hr.symm hc
        · rw [List.filter_cons_of_neg (by simp [hc])]
          exact ih hnd.2 hr

/-- C3: the merge keeps all of `existing`, appends the incoming records
whose revision is not already present (in incoming order), reports the
number of appended records, and for a revision present in both lists the
merged result contains exactly one record with that revision — the one from
`existing`. -/
theorem mergeCommits_dedup (existing incoming : List Commit) (r : Int)
    (hnd : (existing.map (fun c => c.revision)).Nodup)
    (h1 : r ∈ existing.map (fun c => c.revision))
    (h2 : r ∈ incoming.map (fun c => c.revision)) :
    (mergeCommits existing incoming).1 =
      existing ++ incoming.filter
        (fun c => !((existing.map (fun c => c.revision)).contains c.revision)) ∧
    (mergeCommits existing incoming).2 =
      (incoming.filter
        (fun c => !((existing.map (fun c => c.revision)).contains c.revision))).length ∧
    (mergeCommits existing incoming).1.filter (fun c => c.revision == r) =
      existing.filter (fun c => c.revision == r) ∧
    ((mergeCommits existing incoming).1.filter (fun c => c.revision == r)).length = 1 := by
  have hkeep : (incoming.filter
      (fun c => !((existing.map (fun c => c.revision)).contains c.revision))).filter
      (fun c => c.revision == r) = [] := by
    rw [List.filter_filter, List.filter_eq_nil_iff]
    intro c hc
    simp only [Bool.not_eq_true, Bool.and_eq_true, beq_iff_eq, Bool.not_eq_true']
    rintro ⟨hcr, hcont⟩
    rw [← List.elem_iff (a := r)] at h1
    rw [hcr] at hcont
    rw [List.contains] at hcont
    rw [hcont] at h1
    exact Bool.noConfusion h1
  have hfilter : (mergeCommits existing incoming).1.filter (fun c => c.revision == r) =
      existing.filter (fun c => c.revision == r) := by
    show ((existing ++ _).filter _) = _
    rw [List.filter_append, hkeep, List.append_nil]
  refine ⟨rfl, rfl, hfilter, ?_⟩
  rw [hfilter]
  exact filter_revision_of_nodup existing r hnd h1

/-- Witness for C3: revision 1 occurs in both lists; the merged result keeps
the `existing` record. -/
theorem mergeCommits_dedup_witness :
    (([⟨1, "e", 0, "old"⟩] : List Commit).map (fun c => c.revision)).Nodup ∧
    (1 : Int) ∈ ([⟨1, "e", 0, "old"⟩] : List Commit).map (fun c => c.revision) ∧
    (1 : Int) ∈ ([⟨1, "n", 5, "new"⟩, ⟨2, "n", 6, ""⟩] : List Commit).map (fun c => c.revision) ∧
    ((mergeCommits [⟨1, "e", 0, "old"⟩] [⟨1, "n", 5, "new"⟩, ⟨2, "n", 6, ""⟩]).1.filter
      (fun c => c.revision == 1) =
      ([⟨1, "e", 0, "old"⟩] : List Commit).filter (fun c => c.revision == 1) ∧
    ((mergeCommits [⟨1, "e", 0, "old"⟩] [⟨1, "n", 5, "new"⟩, ⟨2, "n", 6, ""⟩]).1.filter
      (fun c => c.revision == 1)).length = 1) :=
  ⟨by decide, by decide, by decide,
   ((mergeCommits_dedup [⟨1, "e", 0, "old"⟩] [⟨1, "n", 5, "new"⟩, ⟨2, "n", 6, ""⟩] 1
      (by decide) (by decide) (by decide)).2.2.1),
   ((mergeCommits_dedup [⟨1, "e", 0, "old"⟩] [⟨1, "n", 5, "new"⟩, ⟨2, "n", 6, ""⟩] 1
      (by decide) (by decide) (by decide)).2.2.2)⟩

/-- Counterexample to C4: two incoming records share revision 5, which is
absent from `existing = []`; the merged result contains both records, not
exactly one. -/
theorem mergeCommits_incoming_dup_counterexample :
    ((mergeCommits [] [⟨5, "a", 0, "x"⟩, ⟨5, "b", 1, "y"⟩]).1.filter
        (fun c => c.revision == 5)).length = 2 ∧
    ¬ ((mergeCommits [] [⟨5, "a", 0, "x"⟩, ⟨5, "b", 1, "y"⟩]).1.filter
        (fun c => c.revision == 5)).length = 1 := by
  decide

/-- C4 (amended): dedup is against `existing` only — when revision `r` is not
in `existing`, every incoming record with revision `r` is kept, duplicates
included; the merged result's records with revision `r` are exactly
`incoming`'s. -/
theorem mergeCommits_incoming_dups_kept (existing incoming : List Commit)
    (r : Int) (h : r ∉ existing.map (fun c => c.revision)) :
    (mergeCommits existing incoming).1.filter (fun c => c.revision == r) =
      incoming.filter (fun c => c.revision == r) := by
  have hex : existing.filter (fun c => c.revision == r) = [] := by
    rw [List.filter_eq_nil_iff]
    intro c hc
    simp only [beq_iff_eq]
    intro hcr
    exact h (by rw [← hcr]; exact List.mem_map_of_mem _ hc)
  show ((existing ++ _).filter _) = _
  rw [List.filter_append, hex, List.nil_append, List.filter_filter]
  refine List.filter_congr ?_
  intro c hc
  by_cases hcr : c.revision = r
  · have hcont : (existing.map (fun c => c.revision)).contains r = false := by
      cases hcontc : (existing.map (fun c => c.revision)).contains r
      · rfl
      · exact absurd (List.elem_iff.1 hcontc) h
    rw [hcr, hcont]
    simp
  · simp [hcr]

/-- Witness for the amended C4: both records with the duplicated revision 5
survive the merge. -/
theorem mergeCommits_incoming_dups_kept_witness :
    (5 : Int) ∉ ([⟨1, "e", 0, ""⟩] : List Commit).map (fun c => c.revision) ∧
    (mergeCommits [⟨1, "e", 0, ""⟩] [⟨5, "a", 0, "x"⟩, ⟨5, "b", 1, "y"⟩]).1.filter
        (fun c => c.revision == 5) =
      ([⟨5, "a", 0, "x"⟩, ⟨5, "b", 1, "y"⟩] : List Commit).filter
        (fun c => c.revision == 5) :=
  ⟨by decide,
   mergeCommits_incoming_dups_kept [⟨1, "e", 0, ""⟩]
     [⟨5, "a", 0, "x"⟩, ⟨5, "b", 1, "y"⟩] 5 (by decide)⟩

/-- C9: merging the same incoming list a second time adds nothing. -/
theorem mergeCommits_idempotent (A B : List Commit) :
    (mergeCommits (mergeCommits A B).1 B).2 = 0 := by
  show (B.filter _).length = 0
  rw [List.length_eq_zero, List.filter_eq_nil_iff]
  intro c hc
  simp only [Bool.not_eq_true, Bool.not_eq_false]
  have hmem : c.revision ∈ (mergeCommits A B).1.map (fun c => c.revision) := by
    have hAB : (mergeCommits A B).1 = A ++ B.filter
        (fun c => !((A.map (fun c => c.revision)).contains c.revision)) := rfl
    rw [hAB, List.map_append]
    by_cases h : c.revision ∈ A.map (fun c => c.revision)
    · exact List.mem_append_left _ h
    · refine List.mem_append_right _ (List.mem_map_of_mem _ ?_)
      rw [List.mem_filter]
      refine ⟨hc, ?_⟩
      cases hcA : (A.map (fun c => c.revision)).contains c.revision
      · rfl
      · exact absurd (List.elem_iff.1 hcA) h
  have htrue : ((mergeCommits A B).1.map (fun c => c.revision)).contains c.revision = true :=
    List.elem_iff.mpr hmem
  rw [htrue]
  rfl

/-! ## ISO week labels -/

/-- Modelled from the spec's description: the Thursday of the Monday-start
week containing calendar day `d` — back up to the week's Monday (ISO
weekday: Monday = 1, …, Sunday = 7), then go forward three days. -/
def thursdayOfWeek (d : Int) : Int :=
  let dow := dayOfWeek d
  let isoDow := if dow = 0 then 7 else dow
  (d - (isoDow - 1)) + 3

/-- C5: the year component of the ISO-week label is the year of the
timestamp's day shifted to the Thursday of its own week (which really is a
Thursday); in particular January 1, 2023 — a Sunday — labels as `2022-W52`,
with label year 2022 while the timestamp's own civil year is 2023. -/
theorem getIsoWeek_year_of_thursday (t : Int) :
    (getIsoWeek t).1 = (civilFromDays (thursdayOfWeek (dayIndex t))).1 ∧
    dayOfWeek (thursdayOfWeek (dayIndex t)) = 4 ∧
    formatWeek (19358 * 86400000) = "2022-W52" ∧
    (getIsoWeek (19358 * 86400000)).1 = 2022 ∧
    (civilFromDays (dayIndex (19358 * 86400000))).1 = 2023 ∧
    dayOfWeek (dayIndex (19358 * 86400000)) = 0 := by
  refine ⟨?_, ?_, by decide, by decide, by decide, by decide⟩
  · simp only [getIsoWeek, getIsoWeekIdx, thursdayOfWeek]
    have harg : ∀ x : Int, dayIndex t + 4 - x = dayIndex t - (x - 1) + 3 := by
      intro x
      ring
    rw [harg]
  · simp only [thursdayOfWeek, dayOfWeek]
    split <;> omega

/-! ## Incremental window planning -/

/-- C7: without a prior span the planner fetches everything; with one, the
candidate window starts one second after the prior span's end and the fetch
is skipped exactly when that start is not strictly before `now`.  At the
spec's concrete inputs (prior end 2024-01-01T00:00:00Z): with `now` five
seconds later the plan is the window from one second after the prior end to
`now`; with `now` equal to the prior end the plan is "nothing to fetch". -/
theorem planWindow_cases (p : Int × Int) (now : Int) :
    planWindow none now = FetchPlan.fetchAll ∧
    (p.2 + 1000 < now →
      planWindow (some p) now = FetchPlan.window (p.2 + 1000) now) ∧
    (now ≤ p.2 + 1000 → planWindow (some p) now = FetchPlan.nothingToFetch) ∧
    planWindow (some (0, 1704067200000)) 1704067205000 =
      FetchPlan.window 1704067201000 1704067205000 ∧
    planWindow (some (0, 1704067200000)) 1704067200000 =
      FetchPlan.nothingToFetch := by
  refine ⟨rfl, ?_, ?_, by decide, by decide⟩
  · intro h
    simp only [planWindow]
    rw [if_neg (by omega)]
  · intro h
    simp only [planWindow]
    rw [if_pos (by omega)]

/-- Witness for C7 at the spec's concrete instant. -/
theorem planWindow_cases_witness :
    (1704067200000 : Int) + 1000 < 1704067205000 ∧
    planWindow (some (0, 1704067200000)) 1704067205000 =
      FetchPlan.window (1704067200000 + 1000) 1704067205000 :=
  ⟨by decide,
   (planWindow_cases (0, 1704067200000) 1704067205000).2.1 (by decide)⟩

/-! ## Date-span recomputation -/

/-- The head-seeded left fold by `min` lands on a list element. -/
theorem foldl_min_mem (t : Int) (ts : List Int) :
    ts.foldl min t ∈ t :: ts := by
  induction ts generalizing t with
  | nil => simp
  | cons x ts ih =>
      rw [List.foldl_cons]
      rcases List.mem_cons.1 (ih (min t x)) with h | h
      · rw [h]
        rcases min_choice t x with hm | hm
        · rw [hm]
          exact List.mem_cons_self _ _
        · rw [hm]
          exact List.mem_cons.2 (Or.inr (List.mem_cons_self _ _))
      · exact List.mem_cons.2 (Or.inr (List.mem_cons.2 (Or.inr h)))

/-- The head-seeded left fold by `min` is a lower bound. -/
theorem foldl_min_le (t : Int) (ts : List Int) :
    ∀ d ∈ t :: ts, ts.foldl min t ≤ d := by
  induction ts generalizing t with
  | nil => simp
  | cons x ts ih =>
      intro d hd
      rw [List.foldl_cons]
      rcases List.mem_cons.1 hd with rfl | hd
      · calc ts.foldl min (min d x) ≤ min d x :=
              ih (min d x) (min d x) (List.mem_cons_self _ _)
          _ ≤ d := min_le_left _ _
      · rcases List.mem_cons.1 hd with rfl | hd
        · calc ts.foldl min (min t d) ≤ min t d :=
                ih (min t d) (min t d) (List.mem_cons_self _ _)
            _ ≤ d := min_le_right _ _
        · exact ih (min t x) d (List.mem_cons.2 (Or.inr hd))

/-- The head-seeded left fold by `max` lands on a list element. -/
theorem foldl_max_mem (t : Int) (ts : List Int) :
    ts.foldl max t ∈ t :: ts := by
  induction ts generalizing t with
  | nil => simp
  | cons x ts ih =>
      rw [List.foldl_cons]
      rcases List.mem_cons.1 (ih (max t x)) with h | h
      · rw [h]
        rcases max_choice t x with hm | hm
        · rw [hm]
          exact List.mem_cons_self _ _
        · rw [hm]
          exact List.mem_cons.2 (Or.inr (List.mem_cons_self _ _))
      · exact List.mem_cons.2 (Or.inr (List.mem_cons.2 (Or.inr h)))

/-- The head-seeded left fold by `max` is an upper bound. -/
theorem foldl_max_le (t : Int) (ts : List Int) :
    ∀ d ∈ t :: ts, d ≤ ts.foldl max t := by
  induction ts generalizing t with
  | nil => simp
  | cons x ts ih =>
      intro d hd
      rw [List.foldl_cons]
      rcases List.mem_cons.1 hd with rfl | hd
      · calc d ≤ max d x := le_max_left _ _
          _ ≤ ts.foldl max (max d x) :=
              ih (max d x) (max d x) (List.mem_cons_self _ _)
      · rcases List.mem_cons.1 hd with rfl | hd
        · calc d ≤ max t d := le_max_right _ _
            _ ≤ ts.foldl max (max t d) :=
                ih (max t d) (max t d) (List.mem_cons_self _ _)
        · exact ih (max t x) d (List.mem_cons.2 (Or.inr hd))

/-- Counterexample to C8 as stated: on the empty sequence the code does not
fail — `Math.min()`/`Math.max()` on an empty spread give `±Infinity` and
`new Date(±Infinity)` is an Invalid Date, so the recomputation returns a
span value whose endpoints are Invalid Dates (`none`), instead of
raising an `EmptyInputError`. -/
theorem recomputeSpan_empty_counterexample :
    recomputeSpan [] = (none, none) := rfl

/-- C8 (amended): on a non-empty commit sequence the recomputed span is the
minimum and maximum timestamp; on the empty sequence the code returns a
value — a span of two Invalid Dates — rather than failing. -/
theorem recomputeSpan_min_max (c : Commit) (cs : List Commit) :
    (∃ m M : Int,
      recomputeSpan (c :: cs) = (some m, some M) ∧
      m ∈ (c :: cs).map (fun c => c.date) ∧
      M ∈ (c :: cs).map (fun c => c.date) ∧
      (∀ d ∈ (c :: cs).map (fun c => c.date), m ≤ d ∧ d ≤ M)) ∧
    recomputeSpan [] = (none, none) := by
  refine ⟨⟨(cs.map (fun c : Commit => c.date)).foldl min c.date,
          (cs.map (fun c : Commit => c.date)).foldl max c.date, rfl, ?_, ?_, ?_⟩, rfl⟩
  · rw [List.map_cons]
    exact foldl_min_mem c.date (cs.map (fun c => c.date))
  · rw [List.map_cons]
    exact foldl_max_mem c.date (cs.map (fun c => c.date))
  · intro d hd
    rw [List.map_cons] at hd
    exact ⟨foldl_min_le c.date (cs.map (fun c => c.date)) d hd,
           foldl_max_le c.date (cs.map (fun c => c.date)) d hd⟩

/-! ## Dashboard last-30-days view -/

theorem dashboard_last30Days_eq (commits : List Commit) (s e now : Int) :
    (Dashboard.aggregateCommits commits s e now).last30Days =
      (commits.filter (fun c => dayIndex s * msPerDay ≤ c.date ∧
          c.date ≤ dayIndex e * msPerDay + 86399999)).foldl
        (fun m c => if (dayIndex now - 30) * msPerDay ≤ c.date
          then bump m (formatDay c.date) else m)
        ((List.range 30).foldl
          (fun m (i : Nat) => mapSet m (formatDayIdx (dayIndex now - 30 + (i : Int))) 0)
          []) := rfl

/-- The 30 seeded labels are the labels of the days `a … a + 29`. -/
theorem seed30_label_iff (a : Int) (k : String) :
    (∃ i ∈ List.range 30, formatDayIdx (a + (i : Int)) = k) ↔
      ∃ d ∈ daysInRange a (a + 29), formatDayIdx d = k := by
  constructor
  · rintro ⟨i, hi, rfl⟩
    rw [List.mem_range] at hi
    exact ⟨a + i, (mem_daysInRange _ _ _).2 ⟨by omega, by omega⟩, rfl⟩
  · rintro ⟨d, hd, rfl⟩
    rw [mem_daysInRange] at hd
    refine ⟨(d - a).toNat, List.mem_range.2 (by omega), ?_⟩
    congr 1
    omega

/-- Counterexample to C2 as stated: with `now` at local noon of 2024-03-01
and no commits, the pre-seeded last-30-days buckets run from 2024-01-31
(today − 30) through 2024-02-29 (today − 1): the label of "today" is not a
key and the label of today − 30 is, so the claimed bucket domain
`today − 29 … today` is wrong on both ends. -/
theorem dashboard_last30Days_counterexample :
    "2024-03-01" ∉ mapKeys (Dashboard.aggregateCommits [] 0 0
      (19783 * 86400000 + 43200000)).last30Days ∧
    "2024-01-31" ∈ mapKeys (Dashboard.aggregateCommits [] 0 0
      (19783 * 86400000 + 43200000)).last30Days := by
  decide

/-- C2 (amended): the last-30-days view is anchored at the invocation
instant and independent of the requested range; its pre-seeded buckets are
the 30 daily labels `today − 30 … today − 1`; at each pre-seeded label the
count is the number of range-filtered commits with timestamp at or after
local midnight 30 days before today carrying that label (so the inclusion
bound really is midnight of `today − 30`); a counted commit whose label was
never seeded (e.g. one dated today) appears as a dynamically added key.
Concretely, with `now` at local noon of 2024-03-01: a commit exactly 30 days
before today at midnight (2024-01-31T00:00) is counted, a commit 31 days
before (2024-01-30T00:00) is not — its bucket stays 0 and no 2024-01-30 key
exists. -/
theorem dashboard_last30Days_amended (commits : List Commit)
    (s e now : Int) (k : String) :
    (k ∈ mapKeys (Dashboard.aggregateCommits [] s e now).last30Days ↔
       k ∈ (daysInRange (dayIndex now - 30) (dayIndex now - 1)).map formatDayIdx) ∧
    (k ∈ (daysInRange (dayIndex now - 30) (dayIndex now - 1)).map formatDayIdx →
       mapGet (Dashboard.aggregateCommits commits s e now).last30Days k =
         some ((commits.filter (fun c => dayIndex s * msPerDay ≤ c.date ∧
             c.date ≤ dayIndex e * msPerDay + 86399999)).countP
           (fun c => decide ((dayIndex now - 30) * msPerDay ≤ c.date ∧
             formatDay c.date = k)))) ∧
    (k ∈ mapKeys (Dashboard.aggregateCommits commits s e now).last30Days ↔
       (k ∈ (daysInRange (dayIndex now - 30) (dayIndex now - 1)).map formatDayIdx ∨
        ∃ c ∈ commits.filter (fun c => dayIndex s * msPerDay ≤ c.date ∧
            c.date ≤ dayIndex e * msPerDay + 86399999),
          (dayIndex now - 30) * msPerDay ≤ c.date ∧ formatDay c.date = k)) ∧
    (mapGet (Dashboard.aggregateCommits [⟨1, "a", 19753 * 86400000, ""⟩]
        (19700 * 86400000) (19790 * 86400000)
        (19783 * 86400000 + 43200000)).last30Days "2024-01-31" = some 1 ∧
     mapGet (Dashboard.aggregateCommits [⟨1, "a", 19752 * 86400000, ""⟩]
        (19700 * 86400000) (19790 * 86400000)
        (19783 * 86400000 + 43200000)).last30Days "2024-01-31" = some 0 ∧
     mapGet (Dashboard.aggregateCommits [⟨1, "a", 19752 * 86400000, ""⟩]
        (19700 * 86400000) (19790 * 86400000)
        (19783 * 86400000 + 43200000)).last30Days "2024-01-30" = none) := by
  have h29 : dayIndex now - 1 = (dayIndex now - 30) + 29 := by omega
  have hA : (∃ i ∈ List.range 30,
      formatDayIdx (dayIndex now - 30 + (i : Int)) = k) ↔
      k ∈ (daysInRange (dayIndex now - 30) (dayIndex now - 1)).map formatDayIdx := by
    rw [List.mem_map, h29]
    exact seed30_label_iff _ k
  refine ⟨?_, ?_, ?_, by decide, by decide, by decide⟩
  · rw [dashboard_last30Days_eq]
    simp only [List.filter_nil, List.foldl_nil]
    rw [mem_mapKeys_foldl_set0]
    simp only [mapKeys, List.map_nil, List.not_mem_nil, false_or]
    exact hA
  · intro hk
    rw [dashboard_last30Days_eq]
    have hseed : mapGet ((List.range 30).foldl
        (fun m (i : Nat) => mapSet m (formatDayIdx (dayIndex now - 30 + (i : Int))) 0)
        []) k = some 0 := by
      rw [mapGet_foldl_set0]
      rw [if_pos]
      rw [List.mem_map]
      rcases List.mem_map.1 hk with ⟨d, hd, rfl⟩
      rw [h29] at hd
      rcases (seed30_label_iff (dayIndex now - 30) _).2 ⟨d, hd, rfl⟩ with ⟨i, hi, hik⟩
      exact ⟨i, hi, hik⟩
    rw [mapGet_foldl_condBump _ _ _ _ _ 0 hseed]
    rw [Nat.zero_add]
  · rw [dashboard_last30Days_eq, mem_mapKeys_foldl_condBump, mem_mapKeys_foldl_set0]
    simp only [mapKeys, List.map_nil, List.not_mem_nil, false_or]
    rw [hA]

/-- Witness for the amended C2: the boundary commit exactly 30 days before
today at midnight is counted in its (pre-seeded) bucket. -/
theorem dashboard_last30Days_amended_witness :
    "2024-01-31" ∈ (daysInRange
        (dayIndex (19783 * 86400000 + 43200000) - 30)
        (dayIndex (19783 * 86400000 + 43200000) - 1)).map formatDayIdx ∧
    mapGet (Dashboard.aggregateCommits [⟨1, "a", 19753 * 86400000, ""⟩]
        (19700 * 86400000) (19790 * 86400000)
        (19783 * 86400000 + 43200000)).last30Days "2024-01-31" =
      some ((([⟨1, "a", 19753 * 86400000, ""⟩] : List Commit).filter
          (fun c => dayIndex (19700 * 86400000) * msPerDay ≤ c.date ∧
            c.date ≤ dayIndex (19790 * 86400000) * msPerDay + 86399999)).countP
        (fun c => decide ((dayIndex (19783 * 86400000 + 43200000) - 30) * msPerDay ≤ c.date ∧
          formatDay c.date = "2024-01-31"))) :=
  ⟨by decide,
   (dashboard_last30Days_amended [⟨1, "a", 19753 * 86400000, ""⟩]
      (19700 * 86400000) (19790 * 86400000) (19783 * 86400000 + 43200000)
      "2024-01-31").2.1 (by decide)⟩

/-! ## Deserialization checks only primitive field types -/

theorem parseCommitList_encode (rs : List SerializedCommit) :
    parseCommitList (rs.map encodeCommit) = some rs := by
  induction rs with
  | nil => rfl
  | cons c rs ih =>
      have hc : parseSerializedCommit (encodeCommit c) = some c := rfl
      rw [List.map_cons]
      simp only [parseCommitList, ih, hc]

/-- C10: `deserializeData` validates only primitive field types.  For every
stored file in the serialized shape — numeric revisions, string
author/date/message and string range bounds — deserialization succeeds and
returns the records unchanged (each date string passed through
`new Date(...)`), for *every* date-parsing behaviour `jsNewDate`: in
particular it succeeds when a revision is zero or negative and when a date
string parses to an Invalid Date, as the concrete instance shows. -/
theorem deserializeData_primitive_only (jsNewDate : String → Option Int)
    (rs : List SerializedCommit) (s e : String) :
    deserializeData jsNewDate (encodeData rs s e) =
      some (rs.map (fun c =>
        ⟨c.revision, c.author, jsNewDate c.date, c.message⟩),
        (jsNewDate s, jsNewDate e)) ∧
    deserializeData (fun _ => none)
      (encodeData [⟨0, "x", "not-a-date", "m"⟩, ⟨-5, "", "2024-13-99", ""⟩]
        "also-not-a-date" "b") =
      some ([⟨0, "x", none, "m"⟩, ⟨-5, "", none, ""⟩], (none, none)) := by
  constructor
  · rw [deserializeData]
    simp [parseSerializedData, encodeData, jLookup, parseCommitList_encode rs]
  · rfl
